import Mathlib

/-!
Verification of the connect-4 engine: a shallow embedding of the board
representation (`src/board.rs`) and the agent/trainer/serialization layer
(`src/bot.rs`), together with theorems settling the specification claims.

Machine integers are modelled as `Nat`/`Int` with explicit truncation where
the source relies on fixed width; fallible operations return `Except`.
-/

namespace C4

/-- The two players (`Chip` in `board.rs`). -/
inductive Chip
  | Red
  | Yellow
  deriving DecidableEq, Repr

/-- `Chip::opposite`. -/
def Chip.opposite : Chip → Chip
  | .Red => .Yellow
  | .Yellow => .Red

/-- `Board` from `board.rs`: `#[repr(transparent)]` around a `(u64, u32)`
pair.  The fields are `Nat`s; theorems that need fixed-width behaviour carry
explicit range hypotheses (`hi < 2^64`, `lo < 2^32`). -/
structure Board where
  hi : Nat
  lo : Nat
  deriving DecidableEq, Repr

/-- `PlaceChipError` from `board.rs`. -/
inductive PlaceChipError
  | ColumnOccupied
  | InvalidColumn
  deriving DecidableEq, Repr

/-- `mask(count)` from `board.rs`: the loop builds `count` consecutive one
bits, i.e. `2^count - 1`. -/
def mask (count : Nat) : Nat := 2 ^ count - 1

/-- `padded_mask(count, padding)` from `board.rs`: `count` one bits shifted
left by `padding`. -/
def padded_mask (count padding : Nat) : Nat := mask count <<< padding

/-- `Board::COLUMN_LEN`. -/
def COLUMN_LEN : Nat := 7

/-- `Board::ROW_LEN`. -/
def ROW_LEN : Nat := 6

/-- `Board::CHIP_BITS_LEN`. -/
def CHIP_BITS_LEN : Nat := 2

/-- `Board::ROW_BITS_LEN = ROW_LEN * CHIP_BITS_LEN`. -/
def ROW_BITS_LEN : Nat := ROW_LEN * CHIP_BITS_LEN

/-- `Board::new`. -/
def Board.new : Board := ⟨0, 0⟩

/-- `Board::as_u128`: `(hi as u128) << 32 | (lo as u128)`. -/
def Board.as_u128 (b : Board) : Nat := (b.hi <<< 32) ||| b.lo

/-- `Board::from_pair`. -/
def Board.from_pair (p : Nat × Nat) : Board := ⟨p.1, p.2⟩

/-- `Board::as_pair`. -/
def Board.as_pair (b : Board) : Nat × Nat := (b.hi, b.lo)

/-- `Board::pair_from_u128`: `((v >> 32) & mask(64)) as u64`, `(v & mask(32))
as u32`. -/
def pair_from_u128 (v : Nat) : Nat × Nat := ((v >>> 32) &&& mask 64, v &&& mask 32)

/-- The `u128` popcount (`count_ones`), for values below `2^128`. -/
def count_ones (n : Nat) : Nat := ((List.range 128).filter (fun i => n.testBit i)).length

/-- `Board::chip_at`.  The intermediate `chips` value is cast `as usize`,
truncating to 64 bits; the `0b11` pattern, `unreachable!` in the source, is
mapped to `none` (theorems about it carry a validity hypothesis). -/
def Board.chip_at (b : Board) (column row : Nat) : Option Chip :=
  let chips := (b.as_u128 >>> (ROW_BITS_LEN * column)) % 2 ^ 64
  let chip := (chips >>> (CHIP_BITS_LEN * row)) &&& mask CHIP_BITS_LEN
  match chip with
  | 0 => none
  | 1 => some Chip.Red
  | 2 => some Chip.Yellow
  | _ => none

/-- `Board::set_chip_at`. -/
def Board.set_chip_at (b : Board) (column row : Nat) (chip : Chip) : Board :=
  let offset := ROW_BITS_LEN * column + CHIP_BITS_LEN * row
  let chipBits : Nat := match chip with
    | Chip.Red => 1
    | Chip.Yellow => 2
  Board.from_pair (pair_from_u128 (b.as_u128 ||| (chipBits <<< offset)))

/-- `Board::place_chip`, returning the row together with the updated board
(the source mutates `self` and returns the row). -/
def Board.place_chip (b : Board) (column : Nat) (chip : Chip) :
    Except PlaceChipError (Nat × Board) :=
  if column ≥ COLUMN_LEN then .error .InvalidColumn
  else
    let chips := (b.as_u128 >>> (ROW_BITS_LEN * column)) &&& mask ROW_BITS_LEN
    let chips_placed := count_ones chips
    if chips_placed ≥ ROW_LEN then .error .ColumnOccupied
    else .ok (chips_placed, b.set_chip_at column chips_placed chip)

/-- The `u128` body of `Board::swap`: the loop ORs each 12-bit column field
into the mirrored position. -/
def swapped_columns (v : Nat) : Nat :=
  (List.range COLUMN_LEN).foldl
    (fun acc column =>
      acc ||| (((v >>> (ROW_BITS_LEN * column)) &&& mask ROW_BITS_LEN) <<<
        (ROW_BITS_LEN * (COLUMN_LEN - 1 - column))))
    0

/-- `Board::swap` (the left-right mirror). -/
def Board.swap (b : Board) : Board :=
  Board.from_pair (pair_from_u128 (swapped_columns b.as_u128))

/-- `Board::filled`: `count_ones(hi) + count_ones(lo) == 42`. -/
def Board.filled (b : Board) : Bool :=
  count_ones b.hi + count_ones b.lo = COLUMN_LEN * ROW_LEN

/-- `Board::available_column_choices`, one entry per column.  As in
`chip_at`, the column field is cast `as usize` before masking. -/
def Board.available_column_choices (b : Board) : List Bool :=
  (List.range COLUMN_LEN).map (fun column =>
    let chips := (b.as_u128 >>> (ROW_BITS_LEN * column)) % 2 ^ 64
    let last_chip_in_row_mask :=
      padded_mask CHIP_BITS_LEN (ROW_BITS_LEN - CHIP_BITS_LEN) % 2 ^ 64
    chips &&& last_chip_in_row_mask = 0)

/-- The four scan directions used by `winner` and
`win_possibilities_at_position`. -/
def directions : List (Int × Int) := [(1, -1), (1, 0), (0, 1), (1, 1)]

/-- `Board::winner`: local 4-in-a-row test around a just-placed cell. -/
def Board.winner (b : Board) (column row : Nat) : Option Chip :=
  if column ≥ COLUMN_LEN ∨ row ≥ ROW_LEN then none
  else
    match b.chip_at column row with
    | none => none
    | some player =>
      let is_winner := directions.any (fun d =>
        (List.range 4).any (fun mn =>
          (List.range 4).all (fun k =>
            let off : Int := (mn : Int) - 3 + (k : Int)
            let c : Int := (column : Int) + d.1 * off
            let r : Int := (row : Int) + d.2 * off
            if c < 0 ∨ 7 ≤ c ∨ r < 0 ∨ 6 ≤ r then false
            else decide (b.chip_at c.toNat r.toNat = some player))))
      if is_winner then some player else none

/-- `Board::win_possibilities_at_position`: for an occupied cell, per
direction the number of 4-cell windows through it whose in-bounds cells are
all empty or the cell's own chip; windows leaving the board do not count. -/
def Board.win_possibilities_at_position (b : Board) (column row : Nat) :
    Option (Chip × Int) :=
  if column ≥ COLUMN_LEN ∨ row ≥ ROW_LEN then none
  else
    match b.chip_at column row with
    | none => none
    | some player =>
      let possible_wins : Int := (directions.map (fun d =>
        (((List.range 4).map (fun mn =>
          (List.range 4).all (fun k =>
            let off : Int := (mn : Int) - 3 + (k : Int)
            let c : Int := (column : Int) + d.1 * off
            let r : Int := (row : Int) + d.2 * off
            if c < 0 ∨ 7 ≤ c ∨ r < 0 ∨ 6 ≤ r then false
            else
              match b.chip_at c.toNat r.toNat with
              | some other => decide (player = other)
              | none => true))).filter (fun available => available)).length)).foldl
        (fun acc n => acc + (n : Int)) 0
      some (player, possible_wins)

/-- `Board::value_of_board`: signed sum of `win_possibilities_at_position`
over all 42 cells, from the maximizer's perspective. -/
def Board.value_of_board (b : Board) (maximizer : Chip) : Int :=
  (List.range COLUMN_LEN).foldl (fun value col =>
    (List.range ROW_LEN).foldl (fun value row =>
      match b.win_possibilities_at_position col row with
      | some (chip, points) => if chip = maximizer then value + points else value - points
      | none => value) value) 0

/-- Rust `Iterator::max_by` on `(column, score)` pairs comparing scores:
`reduce` with `cmp::max_by`, which keeps the first argument only when it
compares strictly greater — so among equal maxima the last element wins. -/
def max_by_score (l : List (Nat × Int)) : Option (Nat × Int) :=
  l.foldl (fun acc x =>
    match acc with
    | none => some x
    | some a => some (if x.2 < a.2 then a else x)) none

/-- Rust `Iterator::min_by` on `(column, score)` pairs comparing scores:
`reduce` with `cmp::min_by`, which keeps the second argument only when the
first compares strictly greater — so among equal minima the first wins. -/
def min_by_score (l : List (Nat × Int)) : Option (Nat × Int) :=
  l.foldl (fun acc x =>
    match acc with
    | none => some x
    | some a => some (if a.2 > x.2 then x else a)) none

/-- The `(column, score)` child list built by `Board::minmax_children`:
legal columns in ascending order `0..7`, each scored by
`minmax_after_move` on the board after placing `turn`'s chip there
(fill test first, then the local win test, then heuristic cutoff or
recursion with the opposite turn and `depth - 1`).  The
`expect`/`unreachable` paths of the source are mapped to the dead values
`none`/`0`. -/
def minmax_children_list (maximizer : Chip) : Nat → Chip → Board → List (Nat × Int)
  | depth, turn, b =>
    ((List.range COLUMN_LEN).filter
      (fun column => b.available_column_choices.getD column false)).filterMap
      (fun column =>
        match b.place_chip column turn with
        | .error _ => none
        | .ok (row, board) =>
          let score : Int :=
            if board.filled then 0
            else match board.winner column row with
              | some w => if maximizer = w then 1000 else -1000
              | none =>
                match depth with
                | 0 => board.value_of_board maximizer * 8
                | d + 1 =>
                  match (if Chip.opposite turn = maximizer then
                      max_by_score (minmax_children_list maximizer d (Chip.opposite turn) board)
                    else
                      min_by_score (minmax_children_list maximizer d (Chip.opposite turn) board)) with
                  | some (_, v) => v
                  | none => 0
          some (column, score))

/-- `Board::minmax_children`: select among the children with `max_by` when
it is the maximizer's turn, `min_by` otherwise.  `none` corresponds to the
source's `expect("game is not over")` panic. -/
def Board.minmax_children (b : Board) (maximizer turn : Chip) (depth : Nat) :
    Option (Nat × Int) :=
  if turn = maximizer then max_by_score (minmax_children_list maximizer depth turn b)
  else min_by_score (minmax_children_list maximizer depth turn b)

/-! ### Agent memory and learning (`bot.rs`) -/

/-- A per-column weight vector (`Weight` in `bot.rs`, `[i16; 7]`), as a
7-element list of `Int`s. -/
abbrev Weight := List Int

/-- `Weight::blank`. -/
def Weight.blank : Weight := List.replicate COLUMN_LEN 0

/-- The agent's `memory: HashMap<Board, Weight>`, as an association list
(the source only uses `contains_key` / `get_mut` / `insert`, so no
iteration-order behaviour is observable). -/
abbrev Mem := List (Board × Weight)

/-- `HashMap::contains_key`. -/
def mem_contains (m : Mem) (b : Board) : Bool := m.any (fun kv => kv.1 = b)

/-- `HashMap` lookup (`get_mut`); total, with the never-used default
`Weight.blank` standing in for the source's `expect`. -/
def mem_get (m : Mem) (b : Board) : Weight :=
  match m.find? (fun kv => kv.1 = b) with
  | some kv => kv.2
  | none => Weight.blank

/-- In-place mutation of the weight stored at an existing key
(the source writes through the `&mut Weight` from `get_or_insert`). -/
def mem_set (m : Mem) (b : Board) (w : Weight) : Mem :=
  m.map (fun kv => if kv.1 = b then (kv.1, w) else kv)

/-- The keys of a memory. -/
def mem_keys (m : Mem) : List Board := m.map Prod.fst

/-- `Bot::get_or_insert_memory_weights`, returning the resolved key, the
`swapped` flag, and the (possibly extended) memory; the source returns the
`&mut Weight` for the key together with the flag. -/
def get_or_insert_memory_weights (m : Mem) (b : Board) : (Board × Bool) × Mem :=
  if mem_contains m b then ((b, false), m)
  else if mem_contains m b.swap then ((b.swap, true), m)
  else ((b, false), m ++ [(b, Weight.blank)])

/-- A logged `Choice` (board snapshot plus chosen column). -/
structure Choice where
  board : Board
  column : Nat
  deriving DecidableEq, Repr

/-- `Action` from `bot.rs` (`Reward(u32) | Punish(u32)`). -/
inductive Action
  | Reward (base : Nat)
  | Punish (base : Nat)
  deriving DecidableEq, Repr

/-- Interpret the low 16 bits of a natural number as a signed `i16`
(Rust's `as i16` cast). -/
def to_i16 (n : Nat) : Int :=
  if n % 2 ^ 16 < 2 ^ 15 then (n % 2 ^ 16 : Int) else (n % 2 ^ 16 : Int) - 2 ^ 16

/-- Two's-complement wrap of an integer into the `i16` range. -/
def wrap_i16 (x : Int) : Int := (x + 2 ^ 15) % 2 ^ 16 - 2 ^ 15

/-- `Bot::lesson_severity_from_turn` for a log of length `len`: the last
turn is the `i16::MAX` sentinel; otherwise `0.02 * (turn as f64).powi(2)`
truncated toward zero by the `as i16` cast — which equals `turn^2 / 50`
exactly for every turn index reachable with the 21-entry log
(`0.02_f64 * (t:f64)^2` lands strictly between consecutive integers or
rounds to the exact integer for `t ≤ 20`). -/
def lesson_severity_from_turn (len turn : Nat) : Int :=
  if turn = len - 1 then 32767 else ((turn ^ 2 / 50 : Nat) : Int)

/-- The common write path of the learning loops: resolve the weights for
the logged board via `get_or_insert_memory_weights`, remap the column if
the mirrored key was used (`Board::COLUMN_LEN - 1 - column`), and update
that column's weight in place. -/
def apply_weight_update (m : Mem) (b : Board) (col0 : Nat) (f : Int → Int) : Mem :=
  let r := get_or_insert_memory_weights m b
  let column := if r.1.2 then COLUMN_LEN - 1 - col0 else col0
  let w := mem_get r.2 r.1.1
  mem_set r.2 r.1.1 (w.set column (f (w.getD column 0)))

/-- One iteration of the `Bot::learn_from_played_choices` loop: the weight
update uses the saturating `checked_add`/`checked_sub` arithmetic of the
source, with the `i16::MAX` severity sentinel marking the last ply. -/
def learn_step (action : Action) (len : Nat) (m : Mem) (idx : Nat) (ch : Choice) : Mem :=
  apply_weight_update m ch.board ch.column (fun old =>
    let sev := lesson_severity_from_turn len idx
    match action with
    | .Reward base =>
      if sev = 32767 then 32767
      else
        let s := old + wrap_i16 (sev + to_i16 base)
        if -32768 ≤ s ∧ s ≤ 32767 then s else 32767
    | .Punish base =>
      if sev = 32767 then -32768
      else
        let s := old - wrap_i16 (sev + to_i16 base)
        if -32768 ≤ s ∧ s ≤ 32767 then s else -32768)

/-- `Bot::learn_from_played_choices`: iterate the loop body over the log
indices `0..len`. -/
def learn_from_played_choices (action : Action) (m : Mem) (log : List Choice) : Mem :=
  (List.range log.length).foldl
    (fun m idx => learn_step action log.length m idx (log.getD idx ⟨Board.new, 0⟩)) m

/-! ### Serialization codec (`bot.rs`) -/

/-- `u64::to_le_bytes`. -/
def le_bytes_64 (n : Nat) : List Nat :=
  [n % 256, n / 256 % 256, n / 256 ^ 2 % 256, n / 256 ^ 3 % 256,
   n / 256 ^ 4 % 256, n / 256 ^ 5 % 256, n / 256 ^ 6 % 256, n / 256 ^ 7 % 256]

/-- `u32::to_le_bytes`. -/
def le_bytes_32 (n : Nat) : List Nat :=
  [n % 256, n / 256 % 256, n / 256 ^ 2 % 256, n / 256 ^ 3 % 256]

/-- `i16::to_le_bytes`: little-endian bytes of the two's-complement
representation. -/
def le_bytes_i16 (w : Int) : List Nat :=
  [(w % 2 ^ 16).toNat % 256, (w % 2 ^ 16).toNat / 256 % 256]

/-- Little-endian byte decoding (`from_le_bytes`). -/
def from_le_bytes (bytes : List Nat) : Nat :=
  bytes.foldr (fun b acc => b % 256 + 256 * acc) 0

/-- `serialize_weights`: the `copy_from_to` loops concatenate the board's
little-endian `u64` and `u32` fields with the seven little-endian `i16`
weights, in order, into a 26-byte record. -/
def serialize_weights (b : Board) (w : Weight) : List Nat :=
  le_bytes_64 b.as_pair.1 ++ le_bytes_32 b.as_pair.2 ++ (w.map le_bytes_i16).flatten

/-- `deserialize_weights`: read the `u64` from bytes 0-7, the `u32` from
bytes 8-11, and the seven `i16` weights from bytes 12-25. -/
def deserialize_weights (bytes : List Nat) : Board × Weight :=
  let board := Board.from_pair
    (from_le_bytes (bytes.take 8), from_le_bytes ((bytes.drop 8).take 4))
  let weight := (List.range COLUMN_LEN).map (fun k =>
    to_i16 (from_le_bytes ((bytes.drop (12 + 2 * k)).take 2)))
  (board, weight)

/-! ### Gladiator tournament (`bot.rs`) -/

/-- `GameResult` from `bot.rs`. -/
inductive GameResult
  | RedWon
  | YellowWon
  | Tie
  deriving DecidableEq, Repr

/-- The state threaded through `GladiatorGame::evaluate`: the two bots (of
an arbitrary type `α`, since only their identity matters for the selection
logic) and the win/tie tallies. -/
structure EvalState (α : Type) where
  red_bot : α
  yellow_bot : α
  red_wins : Nat
  yellow_wins : Nat
  ties : Nat

/-- One iteration of `GladiatorGame::evaluate` given that iteration's game
outcome: tally the result, then swap the bots and, in step, their win
counters. -/
def evaluate_step {α : Type} (s : EvalState α) (result : GameResult) : EvalState α :=
  let s' := match result with
    | .RedWon => { s with red_wins := s.red_wins + 1 }
    | .YellowWon => { s with yellow_wins := s.yellow_wins + 1 }
    | .Tie => { s with ties := s.ties + 1 }
  { red_bot := s'.yellow_bot, yellow_bot := s'.red_bot,
    red_wins := s'.yellow_wins, yellow_wins := s'.red_wins, ties := s'.ties }

/-- `GladiatorGame::evaluate` with the per-iteration game outcomes
abstracted as the input list `results` (the source plays one self-play game
per iteration to produce each outcome; everything else — tallying, the
bot/counter swap, and the final selection — is modelled verbatim):
after all iterations, return `red_bot` if it has strictly more tallied wins,
otherwise `yellow_bot`. -/
def evaluate {α : Type} (red_bot yellow_bot : α) (results : List GameResult) : α :=
  let final := results.foldl evaluate_step
    ⟨red_bot, yellow_bot, 0, 0, 0⟩
  if final.red_wins > final.yellow_wins then final.red_bot else final.yellow_bot

/-! ### Helper lemmas -/

theorem exists_len_seven {α : Type} (l : List α) (h : l.length = 7) :
    ∃ a b c d e f g, l = [a, b, c, d, e, f, g] := by
  rcases l with _ | ⟨a, _ | ⟨b, _ | ⟨c, _ | ⟨d, _ | ⟨e, _ | ⟨f, _ | ⟨g, _ | ⟨x, t⟩⟩⟩⟩⟩⟩⟩⟩ <;>
    simp_all

end C4

/-! ### C10: heuristic score of a lone corner chip -/

namespace C4

/-- C10: on a board whose only chip is a Red chip at column 0, row 0, the
heuristic `value_of_board` from Red's perspective is exactly 3 (one
vertical, one horizontal and one diagonal 4-cell window fit on the board
through that corner). -/
theorem corner_chip_heuristic_value :
    (Board.new.set_chip_at 0 0 Chip.Red).value_of_board Chip.Red = 3 := by
  decide

/-! ### C5: record layout of the serialization codec -/

/-- C5: every encoded record is exactly 26 bytes: the board's little-endian
8-byte field, then its little-endian 4-byte field, then the 7 weights as
little-endian 2-byte two's-complement integers — with no header, padding or
separators (every byte position is covered by the stated formulas). -/
theorem serialize_weights_layout (b : Board) (w0 w1 w2 w3 w4 w5 w6 : Int) :
    (serialize_weights b [w0, w1, w2, w3, w4, w5, w6]).length = 26 ∧
    (∀ i : Fin 8, (serialize_weights b [w0, w1, w2, w3, w4, w5, w6]).getD i.val 0 =
      b.hi / 256 ^ i.val % 256) ∧
    (∀ i : Fin 4, (serialize_weights b [w0, w1, w2, w3, w4, w5, w6]).getD (8 + i.val) 0 =
      b.lo / 256 ^ i.val % 256) ∧
    (∀ k : Fin 7, ∀ j : Fin 2,
      (serialize_weights b [w0, w1, w2, w3, w4, w5, w6]).getD (12 + 2 * k.val + j.val) 0 =
        (([w0, w1, w2, w3, w4, w5, w6].getD k.val 0 % 2 ^ 16).toNat / 256 ^ j.val) % 256) := by
  refine ⟨rfl, ?_, ?_, ?_⟩
  · rintro ⟨i, hi⟩
    interval_cases i <;>
      simp [serialize_weights, le_bytes_64, le_bytes_32, le_bytes_i16, Board.as_pair]
  · rintro ⟨i, hi⟩
    interval_cases i <;>
      simp [serialize_weights, le_bytes_64, le_bytes_32, le_bytes_i16, Board.as_pair]
  · rintro ⟨k, hk⟩ ⟨j, hj⟩
    interval_cases k <;> interval_cases j <;>
      simp [serialize_weights, le_bytes_64, le_bytes_32, le_bytes_i16, Board.as_pair]

/-! ### C4: round-trip law of the serialization codec -/

/-- C4: decoding the encoding of any representable board (a `(u64, u32)`
pair) and any 7-vector of `i16` weights returns the pair unchanged. -/
theorem deserialize_serialize_weights (b : Board) (w : Weight)
    (hhi : b.hi < 2 ^ 64) (hlo : b.lo < 2 ^ 32) (hlen : w.length = 7)
    (hrange : ∀ x ∈ w, -32768 ≤ x ∧ x ≤ 32767) :
    deserialize_weights (serialize_weights b w) = (b, w) := by
  obtain ⟨hi, lo⟩ := b
  obtain ⟨w0, w1, w2, w3, w4, w5, w6, rfl⟩ := exists_len_seven w hlen
  have hhi' : hi < 2 ^ 64 := hhi
  have hlo' : lo < 2 ^ 32 := hlo
  simp only [List.mem_cons, List.not_mem_nil, or_false, forall_eq_or_imp, forall_eq] at hrange
  obtain ⟨h0, h1, h2, h3, h4, h5, h6⟩ := hrange
  have hr7 : List.range 7 = [0, 1, 2, 3, 4, 5, 6] := rfl
  simp only [deserialize_weights, serialize_weights, le_bytes_64, le_bytes_32, le_bytes_i16,
    from_le_bytes, to_i16, Board.as_pair, Board.from_pair, COLUMN_LEN, hr7, List.map_cons,
    List.map_nil, List.flatten, List.append_assoc, List.cons_append, List.nil_append,
    List.take, List.drop, List.foldr, Prod.mk.injEq, Board.mk.injEq, List.cons.injEq]
  norm_num
  and_intros <;> omega

/-- Witness for C4 at a concrete board and mixed-sign weight vector. -/
theorem deserialize_serialize_weights_witness :
    deserialize_weights (serialize_weights (Board.mk 0x5823847547321748 0x42348245)
        [1, -1, 32767, -32768, 0, 5, 7]) =
      (Board.mk 0x5823847547321748 0x42348245, [1, -1, 32767, -32768, 0, 5, 7]) :=
  deserialize_serialize_weights (Board.mk 0x5823847547321748 0x42348245)
    [1, -1, 32767, -32768, 0, 5, 7] (by norm_num) (by norm_num) (by decide) (by decide)

/-! ### C9: gladiator pair evaluation -/

/-- Games won — across the alternation of seats performed by
`GladiatorGame::evaluate` — by the agent that is in the red seat (if
`seat_red`) or the yellow seat (if `!seat_red`) for the first listed
outcome.  The seats flip after every game. -/
def wins_as (seat_red : Bool) : List GameResult → Nat
  | [] => 0
  | r :: rest =>
    (match r, seat_red with
      | .RedWon, true => 1
      | .YellowWon, false => 1
      | _, _ => 0) + wins_as (!seat_red) rest

theorem evaluate_fold_characterization {α : Type} (results : List GameResult) :
    ∀ s : EvalState α,
      (let f := results.foldl evaluate_step s
        if f.red_wins > f.yellow_wins then f.red_bot else f.yellow_bot) =
      (if s.red_wins + wins_as true results > s.yellow_wins + wins_as false results then
        s.red_bot
      else if s.yellow_wins + wins_as false results > s.red_wins + wins_as true results then
        s.yellow_bot
      else if results.length % 2 = 0 then s.yellow_bot else s.red_bot) := by
  induction results with
  | nil =>
    intro s
    simp only [List.foldl_nil, wins_as, Nat.add_zero, List.length_nil]
    split_ifs <;> rfl
  | cons r rest ih =>
    intro s
    have step := ih (evaluate_step s r)
    simp only [List.foldl_cons]
    rw [step]
    rcases s with ⟨rb, yb, rw, yw, t⟩
    rcases r <;>
      simp only [evaluate_step, wins_as, List.length_cons, Bool.not_true, Bool.not_false] <;>
      split_ifs <;> first | rfl | omega

/-- C9 (amended): over any sequence of game outcomes, the pair's survivor
is the agent with strictly more tallied wins; when the two win counts are
equal, the agent seated yellow in the final game survives — i.e. the
second-listed agent when the number of games is even and the first-listed
agent when it is odd (the source swaps the bots after every game and then
returns `yellow_bot` on a tie of the win counters). -/
theorem evaluate_selects_higher_win_count {α : Type} (red_bot yellow_bot : α)
    (results : List GameResult) :
    evaluate red_bot yellow_bot results =
      if wins_as true results > wins_as false results then red_bot
      else if wins_as false results > wins_as true results then yellow_bot
      else if results.length % 2 = 0 then yellow_bot else red_bot := by
  have h := evaluate_fold_characterization results
    (⟨red_bot, yellow_bot, 0, 0, 0⟩ : EvalState α)
  simpa [evaluate] using h

/-- C9 counterexample: two agents `0` and `1` playing two games that both
end in a tie have equal win counts, yet `evaluate` returns the
second-listed agent `1`, not the first-listed one as the claim states. -/
theorem evaluate_tie_returns_second_listed :
    wins_as true [GameResult.Tie, GameResult.Tie] =
      wins_as false [GameResult.Tie, GameResult.Tie] ∧
    evaluate (0 : Nat) 1 [GameResult.Tie, GameResult.Tie] = 1 := by
  constructor <;> rfl

/-! ### C3: minimax child selection -/

/-- `(c, v)` is the element picked by a last-wins maximum: everything
before it scores at most `v` and everything after it scores strictly
less. -/
def SelectedLastMax (l : List (Nat × Int)) (c : Nat) (v : Int) : Prop :=
  ∃ l1 l2, l = l1 ++ (c, v) :: l2 ∧ (∀ p ∈ l1, p.2 ≤ v) ∧ ∀ p ∈ l2, p.2 < v

/-- `(c, v)` is the element picked by a first-wins minimum: everything
before it scores strictly more than `v` and everything after it scores at
least `v`. -/
def SelectedFirstMin (l : List (Nat × Int)) (c : Nat) (v : Int) : Prop :=
  ∃ l1 l2, l = l1 ++ (c, v) :: l2 ∧ (∀ p ∈ l1, v < p.2) ∧ ∀ p ∈ l2, v ≤ p.2

theorem max_by_score_go (l : List (Nat × Int)) :
    ∀ a m : Nat × Int,
      l.foldl (fun acc x =>
        match acc with
        | none => some x
        | some a => some (if x.2 < a.2 then a else x)) (some a) = some m →
      (m = a ∧ ∀ p ∈ l, p.2 < a.2) ∨
      (a.2 ≤ m.2 ∧ ∃ l1 l2, l = l1 ++ m :: l2 ∧
        (∀ p ∈ l1, p.2 ≤ m.2) ∧ ∀ p ∈ l2, p.2 < m.2) := by
  induction l with
  | nil =>
    intro a m h
    simp only [List.foldl_nil, Option.some.injEq] at h
    exact Or.inl ⟨h.symm, by simp⟩
  | cons x t ih =>
    intro a m h
    simp only [List.foldl_cons] at h
    by_cases hx : x.2 < a.2
    · rw [if_pos hx] at h
      rcases ih a m h with ⟨rfl, hall⟩ | ⟨hle, l1, l2, rfl, h1, h2⟩
      · exact Or.inl ⟨rfl, by
          intro p hp
          rcases List.mem_cons.mp hp with rfl | hp
          · exact hx
          · exact hall p hp⟩
      · refine Or.inr ⟨hle, x :: l1, l2, rfl, ?_, h2⟩
        intro p hp
        rcases List.mem_cons.mp hp with rfl | hp
        · exact le_trans (le_of_lt hx) hle
        · exact h1 p hp
    · rw [if_neg hx] at h
      push_neg at hx
      rcases ih x m h with ⟨rfl, hall⟩ | ⟨hle, l1, l2, rfl, h1, h2⟩
      · exact Or.inr ⟨hx, [], t, rfl, by simp, hall⟩
      · refine Or.inr ⟨le_trans hx hle, x :: l1, l2, rfl, ?_, h2⟩
        intro p hp
        rcases List.mem_cons.mp hp with rfl | hp
        · exact hle
        · exact h1 p hp

theorem max_by_score_spec (l : List (Nat × Int)) (c : Nat) (v : Int)
    (h : max_by_score l = some (c, v)) : SelectedLastMax l c v := by
  rcases l with _ | ⟨x, t⟩
  · exact absurd h (by simp [max_by_score])
  · have h' : t.foldl (fun acc x =>
        match acc with
        | none => some x
        | some a => some (if x.2 < a.2 then a else x)) (some x) = some (c, v) := h
    rcases max_by_score_go t x (c, v) h' with ⟨hx, hall⟩ | ⟨hle, l1, l2, rfl, h1, h2⟩
    · refine ⟨[], t, by simp [hx], by simp, fun p hp => ?_⟩
      have h2 := hall p hp
      simpa [← hx] using h2
    · refine ⟨x :: l1, l2, rfl, ?_, h2⟩
      intro p hp
      rcases List.mem_cons.mp hp with rfl | hp
      · exact hle
      · exact h1 p hp

theorem min_by_score_go (l : List (Nat × Int)) :
    ∀ a m : Nat × Int,
      l.foldl (fun acc x =>
        match acc with
        | none => some x
        | some a => some (if a.2 > x.2 then x else a)) (some a) = some m →
      (m = a ∧ ∀ p ∈ l, a.2 ≤ p.2) ∨
      (m.2 < a.2 ∧ ∃ l1 l2, l = l1 ++ m :: l2 ∧
        (∀ p ∈ l1, m.2 < p.2) ∧ ∀ p ∈ l2, m.2 ≤ p.2) := by
  induction l with
  | nil =>
    intro a m h
    simp only [List.foldl_nil, Option.some.injEq] at h
    exact Or.inl ⟨h.symm, by simp⟩
  | cons x t ih =>
    intro a m h
    simp only [List.foldl_cons] at h
    by_cases hx : a.2 > x.2
    · rw [if_pos hx] at h
      rcases ih x m h with ⟨rfl, hall⟩ | ⟨hlt, l1, l2, rfl, h1, h2⟩
      · exact Or.inr ⟨hx, [], t, rfl, by simp, hall⟩
      · refine Or.inr ⟨lt_trans hlt hx, x :: l1, l2, rfl, ?_, h2⟩
        intro p hp
        rcases List.mem_cons.mp hp with rfl | hp
        · exact hlt
        · exact h1 p hp
    · rw [if_neg hx] at h
      push_neg at hx
      rcases ih a m h with ⟨rfl, hall⟩ | ⟨hlt, l1, l2, rfl, h1, h2⟩
      · exact Or.inl ⟨rfl, by
          intro p hp
          rcases List.mem_cons.mp hp with rfl | hp
          · exact hx
          · exact hall p hp⟩
      · refine Or.inr ⟨hlt, x :: l1, l2, rfl, ?_, h2⟩
        intro p hp
        rcases List.mem_cons.mp hp with rfl | hp
        · exact lt_of_lt_of_le hlt hx
        · exact h1 p hp

theorem min_by_score_spec (l : List (Nat × Int)) (c : Nat) (v : Int)
    (h : min_by_score l = some (c, v)) : SelectedFirstMin l c v := by
  rcases l with _ | ⟨x, t⟩
  · exact absurd h (by simp [min_by_score])
  · have h' : t.foldl (fun acc x =>
        match acc with
        | none => some x
        | some a => some (if a.2 > x.2 then x else a)) (some x) = some (c, v) := h
    rcases min_by_score_go t x (c, v) h' with ⟨hx, hall⟩ | ⟨hlt, l1, l2, rfl, h1, h2⟩
    · refine ⟨[], t, by simp [hx], by simp, fun p hp => ?_⟩
      have h2 := hall p hp
      simpa [← hx] using h2
    · refine ⟨x :: l1, l2, rfl, ?_, h2⟩
      intro p hp
      rcases List.mem_cons.mp hp with rfl | hp
      · exact hlt
      · exact h1 p hp

/-- C3 (amended): among the legal child columns enumerated in ascending
column order `0..6`, `minmax_children` selects the column with the maximum
child score when `turn = maximizer`, and the minimum otherwise; when
several columns attain the extremum, the maximizing branch selects the
*last*-encountered (highest-index) extremal column — Rust's
`Iterator::max_by` keeps the later of two equal elements — while the
minimizing branch selects the first-encountered (lowest-index) one. -/
theorem minmax_children_selection (b : Board) (maximizer turn : Chip) (depth : Nat)
    (c : Nat) (v : Int)
    (h : b.minmax_children maximizer turn depth = some (c, v)) :
    (turn = maximizer →
      SelectedLastMax (minmax_children_list maximizer depth turn b) c v) ∧
    (turn ≠ maximizer →
      SelectedFirstMin (minmax_children_list maximizer depth turn b) c v) := by
  unfold Board.minmax_children at h
  by_cases ht : turn = maximizer
  · rw [if_pos ht] at h
    exact ⟨fun _ => max_by_score_spec _ _ _ h, fun hn => absurd ht hn⟩
  · rw [if_neg ht] at h
    exact ⟨fun hteq => absurd hteq ht, fun _ => min_by_score_spec _ _ _ h⟩

/-- The counterexample board for C3: three red chips at the bottom of
column 0 and three at the bottom of column 6 (`as_u128` has the 12-bit
field `0b010101` in columns 0 and 6). -/
def tie_board : Board := ⟨21 * 2 ^ 40, 21⟩

/-- C3 counterexample: with Red to move as maximizer and depth 0 on
`tie_board`, columns 0 and 6 both win immediately (score 1000, the
maximum), yet the selected column is 6 — the last-encountered extremum,
not the first-encountered one as the claim states. -/
theorem minmax_children_tie_break_counterexample :
    minmax_children_list Chip.Red 0 Chip.Red tie_board =
      [(0, 1000), (1, 224), (2, 232), (3, 248), (4, 232), (5, 224), (6, 1000)] ∧
    tie_board.minmax_children Chip.Red Chip.Red 0 = some (6, 1000) := by
  constructor
  · rw [minmax_children_list]
    decide
  · unfold Board.minmax_children
    rw [minmax_children_list]
    decide

/-- Witness for C3's amended theorem at a concrete input: applying it to
`tie_board` at depth 0 shows the last-encountered maximal column is
selected. -/
theorem minmax_children_selection_witness :
    SelectedLastMax (minmax_children_list Chip.Red 0 Chip.Red tie_board) 6 1000 :=
  (minmax_children_selection tie_board Chip.Red Chip.Red 0 6 1000
    (by unfold Board.minmax_children; rw [minmax_children_list]; decide)).1 rfl

/-! ### C1: winner agrees with the geometric 4-in-a-row predicate -/

/-- The raw 2-bit pattern of a cell (the value `chip_at` matches on). -/
def cell_bits (b : Board) (column row : Nat) : Nat :=
  ((b.as_u128 >>> (ROW_BITS_LEN * column)) % 2 ^ 64 >>> (CHIP_BITS_LEN * row)) &&&
    mask CHIP_BITS_LEN

/-- No cell of the 7×6 grid holds the `0b11` pattern the source declares
`unreachable!`. -/
def ValidBoard (b : Board) : Prop := ∀ c < 7, ∀ r < 6, cell_bits b c r ≠ 3

instance : DecidablePred ValidBoard := fun _ =>
  Nat.decidableBallLT _ _

/-- The claim's geometric predicate: some window of 4 consecutive in-bounds
cells in one of the four line directions contains `(column, row)` and every
cell of it holds the chip `p`.  A window along direction `d` containing the
cell is exactly one whose start offset `t` (relative to the cell) lies in
`[-3, 0]`; its cells sit at offsets `t + j` for `j ∈ [0, 3]`, and offset `0`
— the cell itself — always belongs to it. -/
def WinWindowThrough (b : Board) (column row : Nat) (p : Chip) : Prop :=
  ∃ d ∈ directions, ∃ t ∈ ([-3, -2, -1, 0] : List Int),
    ∀ j ∈ ([0, 1, 2, 3] : List Int),
      0 ≤ (column : Int) + d.1 * (t + j) ∧ (column : Int) + d.1 * (t + j) < 7 ∧
      0 ≤ (row : Int) + d.2 * (t + j) ∧ (row : Int) + d.2 * (t + j) < 6 ∧
      b.chip_at ((column : Int) + d.1 * (t + j)).toNat
        ((row : Int) + d.2 * (t + j)).toNat = some p

theorem winner_scan_iff_window (b : Board) (column row : Nat) (player : Chip) :
    (directions.any (fun d =>
      (List.range 4).any (fun mn =>
        (List.range 4).all (fun k =>
          let off : Int := (mn : Int) - 3 + (k : Int)
          let c : Int := (column : Int) + d.1 * off
          let r : Int := (row : Int) + d.2 * off
          if c < 0 ∨ 7 ≤ c ∨ r < 0 ∨ 6 ≤ r then false
          else decide (b.chip_at c.toNat r.toNat = some player))))) = true ↔
    WinWindowThrough b column row player := by
  simp only [List.any_eq_true, List.all_eq_true, List.mem_range]
  constructor
  · rintro ⟨d, hd, mn, hmn, hall⟩
    refine ⟨d, hd, (mn : Int) - 3, by interval_cases mn <;> decide, ?_⟩
    intro j hj
    have hj4 : j = 0 ∨ j = 1 ∨ j = 2 ∨ j = 3 := by simpa using hj
    rcases hj4 with rfl | rfl | rfl | rfl
    · have h := hall 0 (by omega)
      split_ifs at h with hcond
      push_neg at hcond
      obtain ⟨h1, h2, h3, h4⟩ := hcond
      refine ⟨by simpa using h1, by simpa using h2, by simpa using h3,
        by simpa using h4, by simpa using h⟩
    · have h := hall 1 (by omega)
      split_ifs at h with hcond
      push_neg at hcond
      obtain ⟨h1, h2, h3, h4⟩ := hcond
      refine ⟨by simpa using h1, by simpa using h2, by simpa using h3,
        by simpa using h4, by simpa using h⟩
    · have h := hall 2 (by omega)
      split_ifs at h with hcond
      push_neg at hcond
      obtain ⟨h1, h2, h3, h4⟩ := hcond
      refine ⟨by simpa using h1, by simpa using h2, by simpa using h3,
        by simpa using h4, by simpa using h⟩
    · have h := hall 3 (by omega)
      split_ifs at h with hcond
      push_neg at hcond
      obtain ⟨h1, h2, h3, h4⟩ := hcond
      refine ⟨by simpa using h1, by simpa using h2, by simpa using h3,
        by simpa using h4, by simpa using h⟩
  · rintro ⟨d, hd, t, ht, hall⟩
    have ht4 : t = -3 ∨ t = -2 ∨ t = -1 ∨ t = 0 := by simpa using ht
    rcases ht4 with rfl | rfl | rfl | rfl
    · refine ⟨d, hd, 0, by decide, ?_⟩
      intro k hk
      have hk4 : k = 0 ∨ k = 1 ∨ k = 2 ∨ k = 3 := by omega
      rcases hk4 with rfl | rfl | rfl | rfl
      · obtain ⟨h1, h2, h3, h4, h5⟩ := hall 0 (by decide)
        rw [if_neg (by push_neg; omega)]
        simpa using h5
      · obtain ⟨h1, h2, h3, h4, h5⟩ := hall 1 (by decide)
        rw [if_neg (by push_neg; omega)]
        simpa using h5
      · obtain ⟨h1, h2, h3, h4, h5⟩ := hall 2 (by decide)
        rw [if_neg (by push_neg; omega)]
        simpa using h5
      · obtain ⟨h1, h2, h3, h4, h5⟩ := hall 3 (by decide)
        rw [if_neg (by push_neg; omega)]
        simpa using h5
    · refine ⟨d, hd, 1, by decide, ?_⟩
      intro k hk
      have hk4 : k = 0 ∨ k = 1 ∨ k = 2 ∨ k = 3 := by omega
      rcases hk4 with rfl | rfl | rfl | rfl
      · obtain ⟨h1, h2, h3, h4, h5⟩ := hall 0 (by decide)
        rw [if_neg (by push_neg; omega)]
        simpa using h5
      · obtain ⟨h1, h2, h3, h4, h5⟩ := hall 1 (by decide)
        rw [if_neg (by push_neg; omega)]
        simpa using h5
      · obtain ⟨h1, h2, h3, h4, h5⟩ := hall 2 (by decide)
        rw [if_neg (by push_neg; omega)]
        simpa using h5
      · obtain ⟨h1, h2, h3, h4, h5⟩ := hall 3 (by decide)
        rw [if_neg (by push_neg; omega)]
        simpa using h5
    · refine ⟨d, hd, 2, by decide, ?_⟩
      intro k hk
      have hk4 : k = 0 ∨ k = 1 ∨ k = 2 ∨ k = 3 := by omega
      rcases hk4 with rfl | rfl | rfl | rfl
      · obtain ⟨h1, h2, h3, h4, h5⟩ := hall 0 (by decide)
        rw [if_neg (by push_neg; omega)]
        simpa using h5
      · obtain ⟨h1, h2, h3, h4, h5⟩ := hall 1 (by decide)
        rw [if_neg (by push_neg; omega)]
        simpa using h5
      · obtain ⟨h1, h2, h3, h4, h5⟩ := hall 2 (by decide)
        rw [if_neg (by push_neg; omega)]
        simpa using h5
      · obtain ⟨h1, h2, h3, h4, h5⟩ := hall 3 (by decide)
        rw [if_neg (by push_neg; omega)]
        simpa using h5
    · refine ⟨d, hd, 3, by decide, ?_⟩
      intro k hk
      have hk4 : k = 0 ∨ k = 1 ∨ k = 2 ∨ k = 3 := by omega
      rcases hk4 with rfl | rfl | rfl | rfl
      · obtain ⟨h1, h2, h3, h4, h5⟩ := hall 0 (by decide)
        rw [if_neg (by push_neg; omega)]
        simpa using h5
      · obtain ⟨h1, h2, h3, h4, h5⟩ := hall 1 (by decide)
        rw [if_neg (by push_neg; omega)]
        simpa using h5
      · obtain ⟨h1, h2, h3, h4, h5⟩ := hall 2 (by decide)
        rw [if_neg (by push_neg; omega)]
        simpa using h5
      · obtain ⟨h1, h2, h3, h4, h5⟩ := hall 3 (by decide)
        rw [if_neg (by push_neg; omega)]
        simpa using h5

/-- C1: for in-range coordinates on a valid board, `winner(column, row)`
returns chip `p` exactly when the cell holds `p` and some 4-cell window
through the cell (in one of the four directions) is fully in-bounds and
all-`p`; in particular it returns `none` whenever the cell is empty. -/
theorem winner_iff_win_window (b : Board) (column row : Nat) (p : Chip)
    (hc : column < 7) (hr : row < 6) (hv : ValidBoard b) :
    b.winner column row = some p ↔
      b.chip_at column row = some p ∧ WinWindowThrough b column row p := by
  unfold Board.winner
  rw [if_neg (by unfold COLUMN_LEN ROW_LEN; omega)]
  cases hca : b.chip_at column row with
  | none => simp
  | some player =>
    dsimp only
    split_ifs with hw
    · constructor
      · intro he
        obtain rfl : player = p := Option.some.inj he
        exact ⟨rfl, (winner_scan_iff_window b column row player).mp hw⟩
      · intro he
        exact he.1
    · constructor
      · intro he
        exact absurd he (by simp)
      · rintro ⟨he, hwin⟩
        obtain rfl : player = p := Option.some.inj he
        exact absurd ((winner_scan_iff_window b column row player).mpr hwin) hw

/-- Witness for C1 at the board of the source's `winner` unit test (four
red chips on the bottom row of columns 0-3): the theorem applied at
`(3, 0)` yields the occupied cell and a concrete winning window. -/
theorem winner_iff_win_window_witness :
    (Board.mk 16 0x01001001).chip_at 3 0 = some Chip.Red ∧
      WinWindowThrough (Board.mk 16 0x01001001) 3 0 Chip.Red :=
  (winner_iff_win_window (Board.mk 16 0x01001001) 3 0 Chip.Red (by decide) (by decide)
    (by decide)).mp (by decide)

/-! ### C2: place_chip validation and the column-count invariant -/

/-- The column's current chip count as the source computes it: a population
count of the column's 12-bit field (2 bits per cell, one bit set per placed
chip). -/
def column_chip_count (b : Board) (column : Nat) : Nat :=
  count_ones ((b.as_u128 >>> (ROW_BITS_LEN * column)) &&& mask ROW_BITS_LEN)

/-- A sequence of placements applied to the empty board; placements that
fail leave the board unchanged. -/
def place_chip_sequence (moves : List (Nat × Chip)) : Board :=
  moves.foldl (fun b m =>
    match b.place_chip m.1 m.2 with
    | .ok r => r.2
    | .error _ => b) Board.new

theorem length_filter_or_le {α : Type} (l : List α) (p q : α → Bool) :
    (l.filter (fun a => p a || q a)).length ≤ (l.filter p).length + (l.filter q).length := by
  induction l with
  | nil => simp
  | cons a t ih =>
    by_cases hp : p a <;> by_cases hq : q a <;> simp [hp, hq] <;> omega

theorem count_ones_or_le (a b : Nat) :
    count_ones (a ||| b) ≤ count_ones a + count_ones b := by
  unfold count_ones
  rw [List.filter_congr (fun i _ => by rw [Nat.testBit_or] :
    ∀ i ∈ List.range 128, (a ||| b).testBit i = (a.testBit i || b.testBit i))]
  exact length_filter_or_le _ _ _

theorem filter_length_le_one {l : List Nat} (hnd : l.Nodup) (p : Nat → Bool) (k : Nat)
    (h : ∀ i, p i = true → i = k) : (l.filter p).length ≤ 1 := by
  induction l with
  | nil => simp
  | cons a t ih =>
    rw [List.nodup_cons] at hnd
    by_cases hp : p a
    · have hak := h a hp
      subst hak
      have ht : t.filter p = [] := by
        rw [List.filter_eq_nil_iff]
        intro i hi hpi
        exact hnd.1 ((h i hpi) ▸ hi)
      simp [hp, ht]
    · simpa [hp] using ih hnd.2

theorem count_ones_chip_le_one (cb r : Nat) (hcb : cb = 1 ∨ cb = 2) :
    count_ones (cb <<< (CHIP_BITS_LEN * r)) ≤ 1 := by
  unfold count_ones
  rcases hcb with rfl | rfl
  · refine filter_length_le_one (List.nodup_range 128) _ (CHIP_BITS_LEN * r) ?_
    intro i hi
    rw [Nat.testBit_shiftLeft, show (1 : Nat) = 2 ^ 0 from rfl, Nat.testBit_two_pow] at hi
    simp only [Bool.and_eq_true, decide_eq_true_eq] at hi
    omega
  · refine filter_length_le_one (List.nodup_range 128) _ (CHIP_BITS_LEN * r + 1) ?_
    intro i hi
    rw [Nat.testBit_shiftLeft, show (2 : Nat) = 2 ^ 1 from rfl, Nat.testBit_two_pow] at hi
    simp only [Bool.and_eq_true, decide_eq_true_eq] at hi
    omega

theorem as_u128_from_pair_round (v : Nat) (h : v < 2 ^ 96) :
    (Board.from_pair (pair_from_u128 v)).as_u128 = v := by
  apply Nat.eq_of_testBit_eq
  intro i
  simp only [Board.as_u128, Board.from_pair, pair_from_u128, mask, Nat.testBit_or,
    Nat.testBit_and, Nat.testBit_shiftLeft, Nat.testBit_shiftRight,
    Nat.testBit_two_pow_sub_one]
  by_cases h32 : 32 ≤ i
  · by_cases h96 : i < 96
    · have e : 32 + (i - 32) = i := by omega
      simp [h32, e, show i - 32 < 64 by omega, show ¬(i < 32) by omega]
    · have hv : v.testBit i = false :=
        Nat.testBit_lt_two_pow (lt_of_lt_of_le h (Nat.pow_le_pow_right (by norm_num) (by omega)))
      have hv' : v.testBit (32 + (i - 32)) = false := by
        rwa [show 32 + (i - 32) = i by omega]
      simp [h32, hv, hv', show ¬(i < 32) by omega]
  · simp [h32, show i < 32 by omega]

theorem column_field_after_or (v cb c c' r : Nat) (hcb : cb < 4) (hr : r < 6)
    (hc : c < 7) (hc' : c' < 7) :
    ((v ||| (cb <<< (ROW_BITS_LEN * c' + CHIP_BITS_LEN * r))) >>> (ROW_BITS_LEN * c)) &&&
      mask ROW_BITS_LEN =
    (if c = c' then
      ((v >>> (ROW_BITS_LEN * c)) &&& mask ROW_BITS_LEN) ||| (cb <<< (CHIP_BITS_LEN * r))
    else (v >>> (ROW_BITS_LEN * c)) &&& mask ROW_BITS_LEN) := by
  have hbit : ∀ j, 2 ≤ j → cb.testBit j = false := by
    intro j hj
    apply Nat.testBit_lt_two_pow
    have h4 : (2 : Nat) ^ 2 ≤ 2 ^ j := Nat.pow_le_pow_right (by norm_num) hj
    omega
  split_ifs with hcc
  · subst hcc
    apply Nat.eq_of_testBit_eq
    intro i
    simp only [ROW_BITS_LEN, ROW_LEN, CHIP_BITS_LEN, mask, Nat.testBit_and, Nat.testBit_or,
      Nat.testBit_shiftRight, Nat.testBit_shiftLeft, Nat.testBit_two_pow_sub_one]
    by_cases h12 : i < 12
    · have e1 : (6 * 2 * c + i ≥ 6 * 2 * c + 2 * r) = (i ≥ 2 * r) := propext (by omega)
      have e2 : 6 * 2 * c + i - (6 * 2 * c + 2 * r) = i - 2 * r := by omega
      simp only [e1, e2]
      simp [h12]
    · have hcb0 : cb.testBit (i - 2 * r) = false := hbit _ (by omega)
      simp [h12, hcb0]
  · apply Nat.eq_of_testBit_eq
    intro i
    simp only [ROW_BITS_LEN, ROW_LEN, CHIP_BITS_LEN, mask, Nat.testBit_and, Nat.testBit_or,
      Nat.testBit_shiftRight, Nat.testBit_shiftLeft, Nat.testBit_two_pow_sub_one]
    by_cases h12 : i < 12
    · by_cases hle : 6 * 2 * c' + 2 * r ≤ 6 * 2 * c + i
      · have hgt : c' < c := by omega
        have hcb0 : cb.testBit (6 * 2 * c + i - (6 * 2 * c' + 2 * r)) = false := by
          apply hbit
          omega
        simp [h12, hle, hcb0]
      · simp [h12, hle]
    · simp [h12]

theorem chip_bits_val (chip : Chip) :
    (match chip with | Chip.Red => (1 : Nat) | Chip.Yellow => 2) = 1 ∨
    (match chip with | Chip.Red => (1 : Nat) | Chip.Yellow => 2) = 2 := by
  cases chip <;> simp

/-- The inductive invariant for placement sequences: the encoding stays in
the 84 layout bits and every column's popcount stays at most 6. -/
def BoardInv (b : Board) : Prop :=
  b.as_u128 < 2 ^ 84 ∧ ∀ col, column_chip_count b col ≤ 6

theorem board_inv_new : BoardInv Board.new := by
  constructor
  · decide
  · intro col
    simp [column_chip_count, Board.new, Board.as_u128, Nat.zero_shiftRight, Nat.zero_and]
    decide

theorem column_chip_count_big (b : Board) (col : Nat) (hb : b.as_u128 < 2 ^ 84)
    (hcol : 7 ≤ col) : column_chip_count b col = 0 := by
  have : b.as_u128 >>> (ROW_BITS_LEN * col) = 0 := by
    rw [Nat.shiftRight_eq_div_pow]
    apply Nat.div_eq_of_lt
    calc b.as_u128 < 2 ^ 84 := hb
    _ ≤ 2 ^ (ROW_BITS_LEN * col) := Nat.pow_le_pow_right (by norm_num) (by
        simp only [ROW_BITS_LEN, ROW_LEN, CHIP_BITS_LEN]; omega)
  simp [column_chip_count, this, Nat.zero_and]
  decide

theorem place_chip_preserves_inv (b : Board) (col : Nat) (chip : Chip) (hinv : BoardInv b) :
    BoardInv (match b.place_chip col chip with
      | .ok r => r.2
      | .error _ => b) := by
  obtain ⟨hsz, hcnt⟩ := hinv
  unfold Board.place_chip
  by_cases h7 : col ≥ COLUMN_LEN
  · rw [if_pos h7]
    exact ⟨hsz, hcnt⟩
  · rw [if_neg h7]
    by_cases hfull : count_ones ((b.as_u128 >>> (ROW_BITS_LEN * col)) &&& mask ROW_BITS_LEN) ≥
        ROW_LEN
    · rw [if_pos hfull]
      exact ⟨hsz, hcnt⟩
    · rw [if_neg hfull]
      simp only []
      set cb : Nat := (match chip with | Chip.Red => (1 : Nat) | Chip.Yellow => 2) with hcb
      have hcb4 : cb < 4 := by rcases chip_bits_val chip with h | h <;> rw [← hcb] at h <;> omega
      have hcol7 : col < 7 := by simpa [COLUMN_LEN] using h7
      set cnt := count_ones ((b.as_u128 >>> (ROW_BITS_LEN * col)) &&& mask ROW_BITS_LEN)
        with hcntdef
      have hcnt6 : cnt < 6 := by simpa [ROW_LEN] using hfull
      have hoff : ROW_BITS_LEN * col + CHIP_BITS_LEN * cnt ≤ 82 := by
        simp only [ROW_BITS_LEN, ROW_LEN, CHIP_BITS_LEN]
        omega
      have hshift : cb <<< (ROW_BITS_LEN * col + CHIP_BITS_LEN * cnt) < 2 ^ 84 := by
        rw [Nat.shiftLeft_eq]
        calc cb * 2 ^ (ROW_BITS_LEN * col + CHIP_BITS_LEN * cnt)
            ≤ 3 * 2 ^ 82 := by
              apply Nat.mul_le_mul (by omega) (Nat.pow_le_pow_right (by norm_num) hoff)
        _ < 2 ^ 84 := by norm_num
      have hlt96 : b.as_u128 ||| cb <<< (ROW_BITS_LEN * col + CHIP_BITS_LEN * cnt) < 2 ^ 96 := by
        apply Nat.or_lt_two_pow
        · exact lt_trans hsz (by norm_num)
        · exact lt_trans hshift (by norm_num)
      have hval : (b.set_chip_at col cnt chip).as_u128 =
          b.as_u128 ||| cb <<< (ROW_BITS_LEN * col + CHIP_BITS_LEN * cnt) := by
        unfold Board.set_chip_at
        rw [← hcb]
        exact as_u128_from_pair_round _ hlt96
      constructor
      · rw [hval]
        exact Nat.or_lt_two_pow hsz hshift
      · intro c
        by_cases hc7 : c < 7
        · unfold column_chip_count
          rw [hval, column_field_after_or _ _ _ _ _ hcb4 hcnt6 hc7 hcol7]
          split_ifs with hcc
          · subst hcc
            calc count_ones (((b.as_u128 >>> (ROW_BITS_LEN * c)) &&& mask ROW_BITS_LEN) |||
                  cb <<< (CHIP_BITS_LEN * cnt))
                ≤ cnt + count_ones (cb <<< (CHIP_BITS_LEN * cnt)) := by
                  exact count_ones_or_le _ _
            _ ≤ cnt + 1 := by
                have := count_ones_chip_le_one cb cnt (by
                  rcases chip_bits_val chip with h | h <;> rw [← hcb] at h <;> omega)
                omega
            _ ≤ 6 := by omega
          · exact hcnt c
        · have : (b.set_chip_at col cnt chip).as_u128 < 2 ^ 84 := by
            rw [hval]; exact Nat.or_lt_two_pow hsz hshift
          rw [column_chip_count_big _ _ this (by omega)]
          omega

theorem place_chip_sequence_inv (moves : List (Nat × Chip)) :
    BoardInv (place_chip_sequence moves) := by
  unfold place_chip_sequence
  have h : ∀ (l : List (Nat × Chip)) (b : Board), BoardInv b →
      BoardInv (l.foldl (fun b m =>
        match b.place_chip m.1 m.2 with
        | .ok r => r.2
        | .error _ => b) b) := by
    intro l
    induction l with
    | nil => intro b hb; exact hb
    | cons m t ih =>
      intro b hb
      exact ih _ (place_chip_preserves_inv b m.1 m.2 hb)
  exact h moves Board.new board_inv_new

/-- C2: `place_chip` fails with `InvalidColumn` exactly for out-of-range
columns; for in-range columns on invariant-respecting boards it fails with
`ColumnOccupied` exactly when the column already holds 6 chips, and
otherwise succeeds, placing at row = the column's current chip count; and
along every placement sequence every column's chip count stays at most 6. -/
theorem place_chip_contract :
    (∀ (b : Board) (col : Nat) (chip : Chip),
      b.place_chip col chip = .error .InvalidColumn ↔ 7 ≤ col) ∧
    (∀ (b : Board) (col : Nat) (chip : Chip), col < 7 → column_chip_count b col ≤ 6 →
      ((b.place_chip col chip = .error .ColumnOccupied ↔ column_chip_count b col = 6) ∧
       (column_chip_count b col < 6 →
         b.place_chip col chip =
           .ok (column_chip_count b col, b.set_chip_at col (column_chip_count b col) chip)))) ∧
    (∀ (moves : List (Nat × Chip)) (col : Nat),
      column_chip_count (place_chip_sequence moves) col ≤ 6) := by
  refine ⟨?_, ?_, ?_⟩
  · intro b col chip
    unfold Board.place_chip
    split_ifs with h1
    · simpa [COLUMN_LEN] using h1
    · exact iff_of_false (by dsimp only; split_ifs <;> simp) (by simp only [COLUMN_LEN] at h1; omega)
  · intro b col chip h7 hle
    unfold Board.place_chip
    rw [if_neg (by simp [COLUMN_LEN]; omega)]
    dsimp only
    constructor
    · split_ifs with h2
      · simp only [ROW_LEN, column_chip_count] at h2 hle ⊢
        simp only [Except.error.injEq, true_iff, iff_true]
        omega
      · exact iff_of_false (by simp) (by simp only [ROW_LEN, column_chip_count] at h2 ⊢; omega)
    · intro hlt
      rw [if_neg (by simp only [ROW_LEN, column_chip_count] at hlt ⊢; omega)]
      rfl
  · intro moves col
    exact (place_chip_sequence_inv moves).2 col

/-- Witness for C2 at a concrete input: on the empty board, placing into
column 3 succeeds at row 0 and a full column rejects with
`ColumnOccupied`. -/
theorem place_chip_contract_witness :
    Board.new.place_chip 3 Chip.Red =
      .ok (column_chip_count Board.new 3,
        Board.new.set_chip_at 3 (column_chip_count Board.new 3) Chip.Red) :=
  ((place_chip_contract.2.1 Board.new 3 Chip.Red (by decide) (by decide)).2 (by decide))

/-! ### C6: mirror involution -/

theorem testBit_swapped_columns (v i : Nat) (h : i < 84) :
    (swapped_columns v).testBit i = v.testBit (12 * (6 - i / 12) + i % 12) := by
  have h7 : List.range COLUMN_LEN = [0, 1, 2, 3, 4, 5, 6] := rfl
  have hm : ∀ j : Nat, Nat.testBit 4095 j = decide (j < 12) := fun j => by
    rw [show (4095 : Nat) = 2 ^ 12 - 1 from rfl, Nat.testBit_two_pow_sub_one]
  unfold swapped_columns
  rw [h7]
  simp only [List.foldl_cons, List.foldl_nil]
  interval_cases i <;>
    simp [Nat.testBit_or, Nat.testBit_shiftLeft, Nat.testBit_and, Nat.testBit_shiftRight,
      Nat.testBit_two_pow_sub_one, hm, mask, ROW_BITS_LEN, ROW_LEN, CHIP_BITS_LEN, COLUMN_LEN]

theorem swapped_columns_lt (v : Nat) : swapped_columns v < 2 ^ 84 := by
  have h7 : List.range COLUMN_LEN = [0, 1, 2, 3, 4, 5, 6] := rfl
  have hterm : ∀ x s : Nat, s ≤ 72 → (x &&& mask ROW_BITS_LEN) <<< s < 2 ^ 84 := by
    intro x s hs
    rw [Nat.shiftLeft_eq]
    have hx : x &&& mask ROW_BITS_LEN < 2 ^ 12 := by
      have := Nat.and_le_right (n := x) (m := mask ROW_BITS_LEN)
      simp only [mask, ROW_BITS_LEN, ROW_LEN, CHIP_BITS_LEN] at this ⊢
      omega
    calc (x &&& mask ROW_BITS_LEN) * 2 ^ s ≤ (2 ^ 12 - 1) * 2 ^ 72 := by
          apply Nat.mul_le_mul (by omega) (Nat.pow_le_pow_right (by norm_num) hs)
    _ < 2 ^ 84 := by norm_num
  unfold swapped_columns
  rw [h7]
  simp only [List.foldl_cons, List.foldl_nil]
  refine Nat.or_lt_two_pow (Nat.or_lt_two_pow (Nat.or_lt_two_pow (Nat.or_lt_two_pow
    (Nat.or_lt_two_pow (Nat.or_lt_two_pow (Nat.or_lt_two_pow (by norm_num)
      (hterm _ _ (by simp [ROW_BITS_LEN, ROW_LEN, CHIP_BITS_LEN, COLUMN_LEN]))) (hterm _ _ (by simp [ROW_BITS_LEN, ROW_LEN, CHIP_BITS_LEN, COLUMN_LEN]))) (hterm _ _ (by simp [ROW_BITS_LEN, ROW_LEN, CHIP_BITS_LEN, COLUMN_LEN])))
      (hterm _ _ (by simp [ROW_BITS_LEN, ROW_LEN, CHIP_BITS_LEN, COLUMN_LEN]))) (hterm _ _ (by simp [ROW_BITS_LEN, ROW_LEN, CHIP_BITS_LEN, COLUMN_LEN]))) (hterm _ _ (by simp [ROW_BITS_LEN, ROW_LEN, CHIP_BITS_LEN, COLUMN_LEN])))
      (hterm _ _ (by simp [ROW_BITS_LEN, ROW_LEN, CHIP_BITS_LEN, COLUMN_LEN]))

theorem swapped_columns_involution (v : Nat) (h : v < 2 ^ 84) :
    swapped_columns (swapped_columns v) = v := by
  apply Nat.eq_of_testBit_eq
  intro i
  by_cases hi : i < 84
  · rw [testBit_swapped_columns _ _ hi]
    have hidx : 12 * (6 - i / 12) + i % 12 < 84 := by omega
    rw [testBit_swapped_columns _ _ hidx]
    congr 1
    omega
  · have h1 : (swapped_columns (swapped_columns v)).testBit i = false :=
      Nat.testBit_lt_two_pow (lt_of_lt_of_le (swapped_columns_lt _)
        (Nat.pow_le_pow_right (by norm_num) (by omega)))
    have h2 : v.testBit i = false :=
      Nat.testBit_lt_two_pow (lt_of_lt_of_le h
        (Nat.pow_le_pow_right (by norm_num) (by omega)))
    rw [h1, h2]

theorem pair_from_u128_as_u128 (b : Board) (hhi : b.hi < 2 ^ 64) (hlo : b.lo < 2 ^ 32) :
    Board.from_pair (pair_from_u128 b.as_u128) = b := by
  obtain ⟨hi, lo⟩ := b
  have hhi' : hi < 2 ^ 64 := hhi
  have hlo' : lo < 2 ^ 32 := hlo
  simp only [Board.as_u128, Board.from_pair, pair_from_u128, Board.mk.injEq]
  constructor
  · apply Nat.eq_of_testBit_eq
    intro i
    simp only [mask, Nat.testBit_and, Nat.testBit_shiftRight, Nat.testBit_or,
      Nat.testBit_shiftLeft, Nat.testBit_two_pow_sub_one]
    have e : 32 + i - 32 = i := by omega
    have hlo0 : lo.testBit (32 + i) = false :=
      Nat.testBit_lt_two_pow (lt_of_lt_of_le hlo' (Nat.pow_le_pow_right (by norm_num) (by omega)))
    by_cases h64 : i < 64
    · simp [e, hlo0, h64]
    · have hhi0 : hi.testBit i = false :=
        Nat.testBit_lt_two_pow (lt_of_lt_of_le hhi'
          (Nat.pow_le_pow_right (by norm_num) (by omega)))
      simp [e, hlo0, h64, hhi0]
  · apply Nat.eq_of_testBit_eq
    intro i
    simp only [mask, Nat.testBit_and, Nat.testBit_shiftRight, Nat.testBit_or,
      Nat.testBit_shiftLeft, Nat.testBit_two_pow_sub_one]
    by_cases h32 : i < 32
    · simp [h32, show ¬(32 ≤ i) by omega]
    · have hlo0 : lo.testBit i = false :=
        Nat.testBit_lt_two_pow (lt_of_lt_of_le hlo'
          (Nat.pow_le_pow_right (by norm_num) (by omega)))
      simp [h32, hlo0]

theorem swap_swap_aux (b : Board) (hhi : b.hi < 2 ^ 64) (hlo : b.lo < 2 ^ 32)
    (hlayout : b.as_u128 < 2 ^ 84) : b.swap.swap = b := by
  unfold Board.swap
  rw [as_u128_from_pair_round _ (lt_of_lt_of_le (swapped_columns_lt _) (by norm_num))]
  rw [swapped_columns_involution _ hlayout]
  exact pair_from_u128_as_u128 b hhi hlo

/-- C6: `swap` (the left-right mirror) is involutive on every representable
board whose encoding lies in the 84 layout bits of the 7×6 grid — every
board reachable by placements does (`place_chip_sequence_inv`). -/
theorem swap_involution (b : Board) (hhi : b.hi < 2 ^ 64) (hlo : b.lo < 2 ^ 32)
    (hlayout : b.as_u128 < 2 ^ 84) : b.swap.swap = b :=
  swap_swap_aux b hhi hlo hlayout

/-- Witness for C6 on the board of the source's `swap` unit test. -/
theorem swap_involution_witness :
    (Board.mk 0 4194304).swap.swap = Board.mk 0 4194304 :=
  swap_involution (Board.mk 0 4194304) (by norm_num) (by norm_num) (by decide)

/-! ### C7: canonicalization and the mirror-free memory invariant -/

/-- A board value that can actually occur: in-range `(u64, u32)` fields and
an encoding inside the 84 layout bits. -/
def Board.valid (b : Board) : Prop :=
  b.hi < 2 ^ 64 ∧ b.lo < 2 ^ 32 ∧ b.as_u128 < 2 ^ 84

/-- The memory never stores both a board and its distinct mirror as keys. -/
def MirrorFree (m : Mem) : Prop :=
  ∀ k ∈ mem_keys m, ∀ kk ∈ mem_keys m, kk = k.swap → kk = k

theorem mem_contains_iff (m : Mem) (b : Board) :
    mem_contains m b = true ↔ b ∈ mem_keys m := by
  simp [mem_contains, mem_keys, List.any_eq_true, List.mem_map]

theorem swap_valid (b : Board) (hb : b.valid) : b.swap.valid := by
  obtain ⟨h1, h2, h3⟩ := hb
  have hlt : swapped_columns b.as_u128 < 2 ^ 84 := swapped_columns_lt _
  refine ⟨?_, ?_, ?_⟩
  · have := Nat.and_le_right
      (n := swapped_columns b.as_u128 >>> 32) (m := mask 64)
    simp only [Board.swap, Board.from_pair, pair_from_u128, mask] at this ⊢
    omega
  · have := Nat.and_le_right (n := swapped_columns b.as_u128) (m := mask 32)
    simp only [Board.swap, Board.from_pair, pair_from_u128, mask] at this ⊢
    omega
  · show (Board.from_pair (pair_from_u128 (swapped_columns b.as_u128))).as_u128 < 2 ^ 84
    rw [as_u128_from_pair_round _ (lt_of_lt_of_le hlt (by norm_num))]
    exact hlt

theorem swap_swap_of_valid (b : Board) (hb : b.valid) : b.swap.swap = b :=
  swap_swap_aux b hb.1 hb.2.1 hb.2.2

/-- C7: `get_or_insert_memory_weights` resolves by discovery order — the
board itself if it is a key (not mirrored), else its mirror if that is a
key (mirrored), else it inserts a fresh all-zero weight vector keyed by the
board itself; consequently a memory whose keys are valid boards never comes
to hold both a board and its distinct mirror, and the in-place weight
writes (`mem_set`) performed by every other memory-touching operation leave
the key set unchanged. -/
theorem get_or_insert_memory_weights_spec :
    (∀ (m : Mem) (b : Board), mem_contains m b = true →
      get_or_insert_memory_weights m b = ((b, false), m)) ∧
    (∀ (m : Mem) (b : Board), mem_contains m b = false →
      mem_contains m b.swap = true →
      get_or_insert_memory_weights m b = ((b.swap, true), m)) ∧
    (∀ (m : Mem) (b : Board), mem_contains m b = false →
      mem_contains m b.swap = false →
      get_or_insert_memory_weights m b = ((b, false), m ++ [(b, Weight.blank)])) ∧
    (∀ (m : Mem) (b : Board), (∀ k ∈ mem_keys m, k.valid) → b.valid → MirrorFree m →
      MirrorFree (get_or_insert_memory_weights m b).2 ∧
      ∀ k ∈ mem_keys (get_or_insert_memory_weights m b).2, k.valid) ∧
    (∀ (m : Mem) (k : Board) (w : Weight), mem_keys (mem_set m k w) = mem_keys m) := by
  refine ⟨?_, ?_, ?_, ?_, ?_⟩
  · intro m b h
    simp [get_or_insert_memory_weights, h]
  · intro m b h1 h2
    simp [get_or_insert_memory_weights, h1, h2]
  · intro m b h1 h2
    simp [get_or_insert_memory_weights, h1, h2]
  · intro m b hkeys hb hmf
    unfold get_or_insert_memory_weights
    split_ifs with h1 h2
    · exact ⟨hmf, hkeys⟩
    · exact ⟨hmf, hkeys⟩
    · have hkeys' : mem_keys (m ++ [(b, Weight.blank)]) = mem_keys m ++ [b] := by
        simp [mem_keys]
      constructor
      · intro k hk kk hkk heq
        rw [hkeys', List.mem_append] at hk hkk
        rcases hk with hk | hk <;> rcases hkk with hkk | hkk
        · exact hmf k hk kk hkk heq
        · -- kk = b, k an old key: b = k.swap would force b.swap = k ∈ keys
          exfalso
          rw [List.mem_singleton] at hkk
          have hmem : b.swap ∈ mem_keys m := by
            rw [← hkk, heq, swap_swap_of_valid k (hkeys k hk)]
            exact hk
          exact absurd ((mem_contains_iff m b.swap).mpr hmem) (by simp [h2])
        · -- k = b, kk an old key equal to b.swap
          exfalso
          rw [List.mem_singleton] at hk
          have hmem : b.swap ∈ mem_keys m := by
            rw [← hk, ← heq]
            exact hkk
          exact absurd ((mem_contains_iff m b.swap).mpr hmem) (by simp [h2])
        · rw [List.mem_singleton] at hk hkk
          rw [hk, hkk]
      · intro k hk
        rw [hkeys', List.mem_append] at hk
        rcases hk with hk | hk
        · exact hkeys k hk
        · simp only [List.mem_singleton] at hk
          rw [hk]
          exact hb
  · intro m k w
    unfold mem_set mem_keys
    rw [List.map_map]
    apply List.map_congr_left
    intro kv _
    simp only [Function.comp]
    split_ifs <;> rfl

/-- Witness for C7: inserting the empty board into an empty memory yields a
mirror-free memory of valid keys. -/
theorem get_or_insert_memory_weights_spec_witness :
    MirrorFree (get_or_insert_memory_weights [] Board.new).2 ∧
      ∀ k ∈ mem_keys (get_or_insert_memory_weights [] Board.new).2, k.valid :=
  get_or_insert_memory_weights_spec.2.2.2.1 [] Board.new
    (by simp [mem_keys]) (by refine ⟨?_, ?_, ?_⟩ <;> decide) (by simp [MirrorFree, mem_keys])

/-! ### C8: the outcome-severity learning policy -/

/-- All weights stored in a memory are in the `i16` range (true of every
memory the program builds, since weights start at zero and every update
saturates). -/
def MemWF (m : Mem) : Prop :=
  ∀ kv ∈ m, ∀ x ∈ kv.2, -32768 ≤ x ∧ x ≤ 32767

/-- Saturation at the `i16` bounds, as the claim words it. -/
def clamp_i16 (x : Int) : Int := max (-32768) (min 32767 x)

/-- The per-ply weight update exactly as the claim states it: the last ply
(index `len - 1`) is hard-set to the saturated maximum (Reward) or minimum
(Punish); every earlier ply at index `idx` is adjusted by
`±(base + 0.02 · idx²)` — the severity term truncated to an integer as the
`f64 → i16` cast does — saturating at the `i16` bounds; mirrored boards
write to column `6 - column`. -/
def learn_spec_step (action : Action) (len : Nat) (m : Mem) (idx : Nat) (ch : Choice) : Mem :=
  apply_weight_update m ch.board ch.column (fun old =>
    match action with
    | .Reward base =>
      if idx = len - 1 then 32767
      else clamp_i16 (old + ((base : Int) + ((idx ^ 2 / 50 : Nat) : Int)))
    | .Punish base =>
      if idx = len - 1 then -32768
      else clamp_i16 (old - ((base : Int) + ((idx ^ 2 / 50 : Nat) : Int))))

theorem MemWF_mem_get (m : Mem) (hm : MemWF m) (k : Board) :
    ∀ x ∈ mem_get m k, -32768 ≤ x ∧ x ≤ 32767 := by
  intro x hx
  unfold mem_get at hx
  cases hfind : m.find? (fun kv => decide (kv.1 = k)) with
  | none =>
    rw [hfind] at hx
    simp only [Weight.blank, COLUMN_LEN, List.mem_replicate] at hx
    omega
  | some kv =>
    rw [hfind] at hx
    exact hm kv (List.mem_of_find?_eq_some hfind) x hx

theorem MemWF_get_or_insert (m : Mem) (hm : MemWF m) (b : Board) :
    MemWF (get_or_insert_memory_weights m b).2 := by
  unfold get_or_insert_memory_weights
  split_ifs
  · exact hm
  · exact hm
  · intro kv hkv
    rw [List.mem_append] at hkv
    rcases hkv with hkv | hkv
    · exact hm kv hkv
    · rw [List.mem_singleton] at hkv
      subst hkv
      intro x hx
      simp only [Weight.blank, COLUMN_LEN, List.mem_replicate] at hx
      omega

theorem MemWF_mem_set (m : Mem) (hm : MemWF m) (k : Board) (w : Weight)
    (hw : ∀ x ∈ w, -32768 ≤ x ∧ x ≤ 32767) : MemWF (mem_set m k w) := by
  intro kv hkv
  unfold mem_set at hkv
  rw [List.mem_map] at hkv
  obtain ⟨kv0, hkv0, heq⟩ := hkv
  by_cases hk : kv0.1 = k
  · rw [if_pos hk] at heq
    rw [← heq]
    exact hw
  · rw [if_neg hk] at heq
    rw [← heq]
    exact hm kv0 hkv0

theorem apply_weight_update_congr (m : Mem) (b : Board) (col0 : Nat) (f g : Int → Int)
    (hm : MemWF m) (h : ∀ old, -32768 ≤ old → old ≤ 32767 → f old = g old) :
    apply_weight_update m b col0 f = apply_weight_update m b col0 g := by
  unfold apply_weight_update
  dsimp only
  have hwf := MemWF_get_or_insert m hm b
  have hget := MemWF_mem_get _ hwf (get_or_insert_memory_weights m b).1.1
  set w := mem_get (get_or_insert_memory_weights m b).2
    (get_or_insert_memory_weights m b).1.1 with hw
  set column := if (get_or_insert_memory_weights m b).1.2 then COLUMN_LEN - 1 - col0 else col0
  have hold : -32768 ≤ w.getD column 0 ∧ w.getD column 0 ≤ 32767 := by
    by_cases hcol : column < w.length
    · have : w.getD column 0 ∈ w := by
        rw [List.getD_eq_getElem _ _ hcol]
        exact List.getElem_mem hcol
      exact hget _ this
    · rw [List.getD_eq_default _ _ (by omega)]
      omega
  rw [h _ hold.1 hold.2]

theorem MemWF_apply_weight_update (m : Mem) (b : Board) (col0 : Nat) (f : Int → Int)
    (hm : MemWF m) (hf : ∀ old, -32768 ≤ f old ∧ f old ≤ 32767) :
    MemWF (apply_weight_update m b col0 f) := by
  unfold apply_weight_update
  have hwf := MemWF_get_or_insert m hm b
  apply MemWF_mem_set _ hwf
  intro x hx
  rcases List.mem_or_eq_of_mem_set hx with hx | hx
  · exact MemWF_mem_get _ hwf _ _ hx
  · rw [hx]
    exact hf _

theorem severity_le_eight (idx : Nat) (h : idx ≤ 20) : idx ^ 2 / 50 ≤ 8 := by
  have h1 : idx ^ 2 ≤ 400 := by
    have := Nat.mul_le_mul h h
    calc idx ^ 2 = idx * idx := by ring
    _ ≤ 20 * 20 := this
    _ = 400 := by norm_num
  calc idx ^ 2 / 50 ≤ 400 / 50 := Nat.div_le_div_right h1
  _ = 8 := by norm_num

theorem learn_step_eq_spec (action : Action) (len idx : Nat) (m : Mem) (ch : Choice)
    (hm : MemWF m) (hidx : idx < len) (hlen : len ≤ 21)
    (hbase : (match action with | .Reward base => base | .Punish base => base) ≤ 32749) :
    learn_step action len m idx ch = learn_spec_step action len m idx ch := by
  unfold learn_step learn_spec_step
  apply apply_weight_update_congr _ _ _ _ _ hm
  intro old h1 h2
  by_cases hlast : idx = len - 1
  · rcases action with base | base <;>
      simp [lesson_severity_from_turn, hlast]
  · have hsev : lesson_severity_from_turn len idx = ((idx ^ 2 / 50 : Nat) : Int) := by
      simp [lesson_severity_from_turn, hlast]
    have hs8 : idx ^ 2 / 50 ≤ 8 := severity_le_eight idx (by omega)
    have hsevne : lesson_severity_from_turn len idx ≠ 32767 := by
      rw [hsev]
      have : ((idx ^ 2 / 50 : Nat) : Int) ≤ 8 := by exact_mod_cast hs8
      omega
    rcases action with base | base <;>
      · have hb : base ≤ 32749 := hbase
        have hb16 : to_i16 base = (base : Int) := by
          unfold to_i16
          rw [if_pos (by omega)]
          omega
        have hwrap : wrap_i16 (lesson_severity_from_turn len idx + to_i16 base) =
            ((idx ^ 2 / 50 : Nat) : Int) + (base : Int) := by
          rw [hb16, hsev]
          unfold wrap_i16
          have hc : ((idx ^ 2 / 50 : Nat) : Int) ≤ 8 := by exact_mod_cast hs8
          have hbI : (base : Int) ≤ 32749 := by exact_mod_cast hb
          omega
        simp only [if_neg hsevne, if_neg hlast, hwrap, clamp_i16]
        split_ifs <;> omega

/-- The value written by the claim-side step is always in `i16` range. -/
theorem learn_spec_step_value_wf (action : Action) (len idx : Nat) (old : Int) :
    -32768 ≤ (match action with
      | Action.Reward base =>
        if idx = len - 1 then (32767 : Int)
        else clamp_i16 (old + ((base : Int) + ((idx ^ 2 / 50 : Nat) : Int)))
      | Action.Punish base =>
        if idx = len - 1 then -32768
        else clamp_i16 (old - ((base : Int) + ((idx ^ 2 / 50 : Nat) : Int)))) ∧
    (match action with
      | Action.Reward base =>
        if idx = len - 1 then (32767 : Int)
        else clamp_i16 (old + ((base : Int) + ((idx ^ 2 / 50 : Nat) : Int)))
      | Action.Punish base =>
        if idx = len - 1 then -32768
        else clamp_i16 (old - ((base : Int) + ((idx ^ 2 / 50 : Nat) : Int)))) ≤ 32767 := by
  rcases action with base | base <;> dsimp only <;> split_ifs <;> simp [clamp_i16]

theorem MemWF_learn_spec_step (action : Action) (len idx : Nat) (m : Mem) (ch : Choice)
    (hm : MemWF m) : MemWF (learn_spec_step action len m idx ch) := by
  unfold learn_spec_step
  apply MemWF_apply_weight_update _ _ _ _ hm
  intro old
  exact learn_spec_step_value_wf action len idx old

/-- C8: for every bot state with a non-empty log (of at most the 21 plies
the log array can hold) and reward/punish base within `i16` reach, the
outcome-severity learning pass is exactly the claim-side pass: the last
ply's column weight is hard-set to the saturated maximum (Reward) or
minimum (Punish), and every earlier ply at index `i` is adjusted by
`±(base + 0.02·i²)` (the severity truncated to an integer exactly as the
source's `f64 → i16` cast does for every reachable index), saturating at
the `i16` bounds instead of wrapping, with mirrored boards writing to
column `6 - column`. -/
theorem learn_from_played_choices_spec (action : Action) (m : Mem) (log : List Choice)
    (hlen : log.length ≤ 21) (hne : log ≠ [])
    (hbase : (match action with | .Reward base => base | .Punish base => base) ≤ 32749)
    (hm : MemWF m) :
    learn_from_played_choices action m log =
      (List.range log.length).foldl
        (fun m idx => learn_spec_step action log.length m idx
          (log.getD idx ⟨Board.new, 0⟩)) m := by
  unfold learn_from_played_choices
  have key : ∀ (l : List Nat) (m0 : Mem), (∀ i ∈ l, i < log.length) → MemWF m0 →
      l.foldl (fun m idx => learn_step action log.length m idx
        (log.getD idx ⟨Board.new, 0⟩)) m0 =
      l.foldl (fun m idx => learn_spec_step action log.length m idx
        (log.getD idx ⟨Board.new, 0⟩)) m0 := by
    intro l
    induction l with
    | nil =>
      intro m0 _ _
      simp
    | cons a t ih =>
      intro m0 hmem hm0
      simp only [List.foldl_cons]
      rw [learn_step_eq_spec action log.length a m0 _ hm0
        (hmem a (List.mem_cons_self a t)) hlen hbase]
      exact ih _ (fun i hi => hmem i (List.mem_cons_of_mem _ hi))
        (MemWF_learn_spec_step action log.length a m0 _ hm0)
  exact key (List.range log.length) m (fun i hi => List.mem_range.mp hi) hm

/-- Witness for C8 on a one-ply log with an empty memory and `Reward 10`. -/
theorem learn_from_played_choices_spec_witness :
    learn_from_played_choices (Action.Reward 10) [] [⟨Board.new, 3⟩] =
      (List.range 1).foldl
        (fun m idx => learn_spec_step (Action.Reward 10) 1 m idx
          ([⟨Board.new, 3⟩].getD idx ⟨Board.new, 0⟩)) [] :=
  learn_from_played_choices_spec (Action.Reward 10) [] [⟨Board.new, 3⟩]
    (by decide) (by decide) (by decide) (by intro kv hkv; simp at hkv)

end C4
